import Mathlib

/-!
Verification of the molecule-notation parser and 2D layout engine of
`interp.py` (parse_molecule, build_graph, find_cycle, place_atoms).

The Python source is shallowly embedded below.  Numeric coordinates
(Python floats) are idealised as exact rationals; the floating point
library routines `math.pi`, `math.cos`, `math.sin` and `math.sqrt` are
abstracted as an explicit parameter pack `FloatOps`, so that every
definition stays executable and every arithmetic step of the source is
represented exactly.  Python exceptions are modelled with an explicit
error type propagated through `Except`.  The unbounded recursion of the
source (the DFS of `find_cycle` and the BFS queue loop of `place_atoms`)
is embedded with an explicit fuel argument; fuel-sufficiency theorems
below prove that the fuel chosen by the embedding is never exhausted, so
the fueled functions agree with the unbounded originals.
-/

namespace OMRF

/-- Stand-ins for the floating point library routines used by the source
(`math.pi`, `math.cos`, `math.sin`, `math.sqrt`), abstracted so that the
embedding is executable and exact. -/
structure FloatOps where
  pi : ℚ
  cos : ℚ → ℚ
  sin : ℚ → ℚ
  sqrt : ℚ → ℚ

/-- Python exceptions that the source can raise, plus the artificial
`fuelExhausted` used by the fueled embedding of the two unbounded loops
(proved unreachable below). -/
inductive PyError where
  | valueError (msg : String)
  | keyError (key : String)
  | stopIteration
  | fuelExhausted
  deriving DecidableEq, Repr

/-- A connection of an atom: Python represents these as tuples of length 2
(lone pair) or length 3 (bond). -/
inductive Conn where
  | lonePair (direction : String)
  | bond (direction : String) (bondType : String) (target : String)
  deriving DecidableEq, Repr

/-- An atom record: `\x7b'charge': ..., 'connections': [...]\x7d` in the source. -/
structure Atom where
  charge : String
  connections : List Conn
  deriving DecidableEq, Repr

/-- The molecule: a Python dict from atom label to atom record, modelled as
an association list in insertion order (Python dicts preserve insertion
order, which the source relies on). -/
abbrev Atoms := List (String × Atom)

/-- Adjacency structure built by `build_graph`. -/
abbrev Graph := List (String × List String)

/-- The positions dict built by `place_atoms`. -/
abbrev PosMap := List (String × (ℚ × ℚ))

instance exceptDecEq {ε α : Type} [DecidableEq ε] [DecidableEq α] :
    DecidableEq (Except ε α) := fun x y =>
  match x, y with
  | .ok a, .ok b =>
    if h : a = b then .isTrue (by rw [h]) else .isFalse (fun hc => h (Except.ok.inj hc))
  | .error e, .error f =>
    if h : e = f then .isTrue (by rw [h]) else .isFalse (fun hc => h (Except.error.inj hc))
  | .ok _, .error _ => .isFalse (fun hc => Except.noConfusion hc)
  | .error _, .ok _ => .isFalse (fun hc => Except.noConfusion hc)

/-- Lookup in a Python dict modelled as an association list. -/
def dictGet? {α : Type} : List (String × α) → String → Option α
  | [], _ => none
  | (k, v) :: rest, key => if k = key then some v else dictGet? rest key

/-- Python dict assignment `d[k] = v`: overwrite in place if the key exists,
otherwise append at the end (insertion order is preserved). -/
def dictInsert {α : Type} : List (String × α) → String → α → List (String × α)
  | [], key, v => [(key, v)]
  | (k, w) :: rest, key, v =>
    if k = key then (key, v) :: rest else (k, w) :: dictInsert rest key v

/-- Python `set.add`, on a list kept as a set. -/
def insertS (s : List String) (x : String) : List String :=
  if x ∈ s then s else s ++ [x]

/-- Python `list.index`: index of the first occurrence, `none` when absent
(where Python raises ValueError). -/
def listIndex? (x : String) : List String → Option Nat
  | [] => none
  | y :: ys => if y = x then some 0 else (listIndex? x ys).map (· + 1)

/-- Python `enumerate`, starting at a given index. -/
def pyEnum {α : Type} : Nat → List α → List (Nat × α)
  | _, [] => []
  | i, a :: as => (i, a) :: pyEnum (i + 1) as

/-! Section: the notation parser, `parse_molecule` -/

/-- Word characters of the regex class `\w` (ASCII fragment). -/
def isWordChar (c : Char) : Bool := c.isAlphanum || c = '_'

def lbrace : Char := Char.ofNat 123

def rbrace : Char := Char.ofNat 125

/-- Python `str.split(sep)` for a one-character separator. -/
def splitOnCharAux (sep : Char) : List Char → List Char → List (List Char)
  | [], acc => [acc.reverse]
  | c :: cs, acc =>
    if c = sep then acc.reverse :: splitOnCharAux sep cs []
    else splitOnCharAux sep cs (c :: acc)

def splitOnChar (sep : Char) (l : List Char) : List (List Char) :=
  splitOnCharAux sep l []

/-- Python `str.strip()`. -/
def trimChars (l : List Char) : List Char :=
  ((l.dropWhile Char.isWhitespace).reverse.dropWhile Char.isWhitespace).reverse

/-- Python `str.endswith('::')`. -/
def endsTwoColons (l : List Char) : Bool :=
  match l.reverse with
  | ':' :: ':' :: _ => true
  | _ => false

/-- Python `s[:-2]`. -/
def dropLast2 (l : List Char) : List Char := (l.reverse.drop 2).reverse

/-- The tail `\[(.*)\]` of the statement regex: requires the next character
to be `[`, and captures everything up to the last `]` (greedy `.*`, which
does not cross a newline). -/
def bracketContent : List Char → Option (List Char)
  | c :: rest =>
    if c = '[' then
      let seg := rest.takeWhile (· ≠ '\n')
      match seg.reverse.dropWhile (· ≠ ']') with
      | ']' :: restRev => some restRev.reverse
      | _ => none
    else none
  | [] => none

/-- The optional charge group `(\x7b.*?\x7d)?` of the statement regex, lazy
with backtracking: the earliest closing brace for which the remainder of
the regex matches is chosen.  Arguments: the reversed content matched by
`.*?` so far, and the remaining input (after the opening brace).  Returns
the charge content and the captured bracket group. -/
def tryChargeFrom : List Char → List Char → Option (List Char × List Char)
  | _, [] => none
  | accRev, c :: rest =>
    if c = rbrace then
      match bracketContent rest with
      | some content => some (accRev.reverse, content)
      | none => tryChargeFrom (c :: accRev) rest
    else if c = '\n' then none
    else tryChargeFrom (c :: accRev) rest

/-- Model of `re.match(r'(\w+)(\x7b.*?\x7d)?\[(.*)\]', line)`: returns the
three captured groups (label, charge with braces or empty, connection
list text), or `none` when the statement does not match. -/
def regexMatch (line : List Char) : Option (List Char × List Char × List Char) :=
  let label := line.takeWhile isWordChar
  let rest := line.dropWhile isWordChar
  if label.isEmpty then none
  else
    match rest with
    | c :: rest' =>
      if c = lbrace then
        match tryChargeFrom [] rest' with
        | some (content, bc) => some (label, lbrace :: (content ++ [rbrace]), bc)
        | none => none
      else
        match bracketContent rest with
        | some bc => some (label, [], bc)
        | none => none
    | [] => none

/-- Parsing of one connection token: the lone-pair form `direction::`, or
the bond form `direction:bondSymbol:target` via `conn.split(':')`, whose
tuple unpacking raises ValueError unless there are exactly three parts. -/
def parseConn (conn : List Char) : Except PyError Conn :=
  if endsTwoColons conn then .ok (.lonePair (String.mk (dropLast2 conn)))
  else
    match splitOnChar ':' conn with
    | [d, b, t] => .ok (.bond (String.mk d) (String.mk b) (String.mk t))
    | _ => .error (.valueError "unpack")

/-- Processing of one `;`-separated statement of the input: blank
statements are skipped, statements that do not match the regex are
silently skipped, and a matching statement has its connection tokens
parsed (the first bad token aborts with the ValueError) and is entered
into the atoms dict. -/
def parseStatement (atoms : Atoms) (line : List Char) : Except PyError Atoms :=
  let line := trimChars line
  if line.isEmpty then .ok atoms
  else
    match regexMatch line with
    | none => .ok atoms
    | some (label, charge, connStr) =>
      match ((splitOnChar ',' connStr).map trimChars).mapM parseConn with
      | .error e => .error e
      | .ok conns =>
        .ok (dictInsert atoms (String.mk label) ⟨String.mk charge, conns⟩)

/-- Function `parse_molecule` of the source. -/
def parse_molecule (input : String) : Except PyError Atoms :=
  (splitOnChar ';' input.data).foldlM parseStatement []

/-! Section: the graph builder, `build_graph` -/

/-- Targets of the bond connections of an atom (`len(conn) == 3`). -/
def bondTargets (conns : List Conn) : List String :=
  conns.filterMap fun c =>
    match c with
    | .bond _ _ t => some t
    | .lonePair _ => none

/-- Function `build_graph` of the source: adjacency lists in atom insertion order. -/
def build_graph (atoms : Atoms) : Graph :=
  atoms.map fun la => (la.1, bondTargets la.2.connections)

/-- All node labels mentioned by a graph: its keys followed by every
neighbor entry, deduplicated.  Used only to size the fuel of the two
embedded loops. -/
def allNodes (g : Graph) : List String :=
  (g.map Prod.fst ++ (g.map Prod.snd).flatten).dedup

/-! Section: the cycle detector, `find_cycle`.

The recursive `dfs` of the source mutates a shared `visited` set and a
shared `path` list (appended before each recursive call and popped after a
fruitless one); the embedding threads `visited` through every return value
and passes the extended path downward, which is observationally the same.
The neighbor loop `dfsNbs` takes the recursive call as an explicit
function argument `rec`, so that `dfsAux` below is plain structural
recursion on its fuel. -/

/-- The body of `for neighbor in graph[node]` inside `dfs`.  Returns the
found cycle (or `none`) together with the updated visited set;
`path.index` raises ValueError when the already-visited neighbor is no
longer on the current path. -/
def dfsNbs (rec : String → Option String → List String → List String →
      Except PyError (Option (List String) × List String))
    (node : String) (parent : Option String) (path : List String) :
    List String → List String → Except PyError (Option (List String) × List String)
  | [], visited => .ok (none, visited)
  | nb :: rest, visited =>
    if some nb = parent then dfsNbs rec node parent path rest visited
    else if nb ∈ visited then
      match listIndex? nb path with
      | none => .error (.valueError "not in list")
      | some i => .ok (some (path.drop i), visited)
    else
      match rec nb (some node) (path ++ [nb]) visited with
      | .error e => .error e
      | .ok (some c, visited') =>
        if c = [] then dfsNbs rec node parent path rest visited'
        else .ok (some c, visited')
      | .ok (none, visited') => dfsNbs rec node parent path rest visited'

/-- The recursive `dfs` of `find_cycle`, with fuel. -/
def dfsAux (g : Graph) : Nat → String → Option String → List String →
    List String → Except PyError (Option (List String) × List String)
  | 0, _, _, _, _ => .error .fuelExhausted
  | fuel + 1, node, parent, path, visited =>
    let visited' := insertS visited node
    match dictGet? g node with
    | none => .error (.keyError node)
    | some nbs => dfsNbs (dfsAux g fuel) node parent path nbs visited'

/-- The outer `for node in graph` loop of `find_cycle` (the `visited` set
is shared across iterations). -/
def fcLoop (g : Graph) (fuel : Nat) :
    List String → List String → Except PyError (Option (List String))
  | [], _ => .ok none
  | node :: rest, visited =>
    if node ∈ visited then fcLoop g fuel rest visited
    else
      match dfsAux g fuel node none [node] visited with
      | .error e => .error e
      | .ok (some c, visited') =>
        if c = [] then fcLoop g fuel rest visited' else .ok (some c)
      | .ok (none, visited') => fcLoop g fuel rest visited'

/-- Function `find_cycle` of the source. -/
def find_cycle (g : Graph) : Except PyError (Option (List String)) :=
  fcLoop g (allNodes g).length (g.map Prod.fst) []

/-! Section: the layout engine, `place_atoms` -/

/-- Python truthiness of the optional cycle (`if cycle:`): `None` and the
empty list are falsy. -/
def truthy : Option (List String) → Bool
  | none => false
  | some c => !c.isEmpty

/-- The position computed for a not-yet-placed bond target (source lines
94-115): the radially-outward special case for `above` bonds of cycle
members, the four grid offsets, and the ValueError for any other
direction. -/
def computePos (F : FloatOps) (cycle : Option (List String)) (current : String)
    (cpos : ℚ × ℚ) (direction : String) : Except PyError (ℚ × ℚ) :=
  if truthy cycle = true ∧ current ∈ cycle.getD [] ∧ direction = "above" then
    let vec := cpos
    let norm := F.sqrt (vec.1 ^ 2 + vec.2 ^ 2)
    if norm > 0 then
      let unit := (vec.1 / norm, vec.2 / norm)
      .ok (cpos.1 + unit.1, cpos.2 + unit.2)
    else .ok (cpos.1, cpos.2 + 1)
  else if direction = "right" then .ok (cpos.1 + 1, cpos.2)
  else if direction = "left" then .ok (cpos.1 - 1, cpos.2)
  else if direction = "above" then .ok (cpos.1, cpos.2 + 1)
  else if direction = "below" then .ok (cpos.1, cpos.2 - 1)
  else .error (.valueError ("Unknown direction: " ++ direction))

/-- The `for connection in atoms[current]['connections']` loop of the BFS:
lone pairs are skipped, already-placed targets are skipped, and a newly
computed position is recorded and its atom appended to the queue. -/
def processConns (F : FloatOps) (cycle : Option (List String)) (current : String)
    (cpos : ℚ × ℚ) : List Conn → PosMap → List String →
    Except PyError (PosMap × List String)
  | [], ps, queue => .ok (ps, queue)
  | .lonePair _ :: rest, ps, queue => processConns F cycle current cpos rest ps queue
  | .bond direction _ target :: rest, ps, queue =>
    if (dictGet? ps target).isSome then processConns F cycle current cpos rest ps queue
    else
      match computePos F cycle current cpos direction with
      | .error e => .error e
      | .ok pos =>
        processConns F cycle current cpos rest (dictInsert ps target pos) (queue ++ [target])

/-- The `while queue` BFS loop of `place_atoms`, with fuel. -/
def bfsLoop (F : FloatOps) (atoms : Atoms) (cycle : Option (List String)) :
    Nat → List String → PosMap → Except PyError PosMap
  | _, [], ps => .ok ps
  | 0, _ :: _, _ => .error .fuelExhausted
  | fuel + 1, current :: rest, ps =>
    match dictGet? ps current with
    | none => .error (.keyError current)
    | some cpos =>
      match dictGet? atoms current with
      | none => .error (.keyError current)
      | some atom =>
        match processConns F cycle current cpos atom.connections ps rest with
        | .error e => .error e
        | .ok (ps', queue') => bfsLoop F atoms cycle fuel queue' ps'

/-- The circular seeding of a detected cycle: atom `i` of `n` at angle
`2*pi*i/n` on a circle of radius 1.0. -/
def seedCycle (F : FloatOps) (cyc : List String) : PosMap :=
  let n : ℚ := cyc.length
  let radius : ℚ := 1
  (pyEnum 0 cyc).foldl
    (fun ps ia =>
      let angle := 2 * F.pi * (ia.1 : ℚ) / n
      dictInsert ps ia.2 (radius * F.cos angle, radius * F.sin angle))
    []

/-- Seed placement: the whole cycle on a circle when one was found,
otherwise the first atom of the molecule at the origin
(`next(iter(atoms))` raises StopIteration on an empty dict). -/
def seedPositions (F : FloatOps) (atoms : Atoms) (cycle : Option (List String)) :
    Except PyError PosMap :=
  if truthy cycle = true then .ok (seedCycle F (cycle.getD []))
  else
    match atoms with
    | [] => .error .stopIteration
    | (k, _) :: _ => .ok [(k, ((0 : ℚ), (0 : ℚ)))]

/-- Function `place_atoms` of the source. -/
def place_atoms (F : FloatOps) (atoms : Atoms) : Except PyError PosMap :=
  let graph := build_graph atoms
  match find_cycle graph with
  | .error e => .error e
  | .ok cycle =>
    match seedPositions F atoms cycle with
    | .error e => .error e
    | .ok ps0 =>
      let queue0 := ps0.map Prod.fst
      bfsLoop F atoms cycle (queue0.length + (allNodes graph).length) queue0 ps0

/-- A concrete instance of the abstracted floating point routines, used to
evaluate the embedding on concrete inputs. -/
def F0 : FloatOps where
  pi := 3
  cos := fun q => q
  sin := fun q => q + 10
  sqrt := fun _ => 1

/-- Label `v` is listed among the neighbors of `u` in the adjacency structure:
`u` declared a bond to `v`, so the pair is bonded. -/
def adjacent (g : Graph) (u v : String) : Prop :=
  v ∈ (dictGet? g u).getD []

/-- Sequence `c` is a simple cycle of the graph: nonempty, without repeated atoms,
and every pair of consecutive elements including the wraparound pair is
bonded (appending the head to the end makes the wraparound pair a
consecutive pair of the chain). -/
def goodCycle (g : Graph) (c : List String) : Prop :=
  c ≠ [] ∧ c.Nodup ∧ List.Chain' (adjacent g) (c ++ c.take 1)

/-! Helper lemmas: dictionaries, list index, enumeration -/

theorem dictGet?_insert_self {α : Type} (ps : List (String × α)) (k : String) (v : α) :
    dictGet? (dictInsert ps k v) k = some v := by
  induction ps with
  | nil => simp [dictInsert, dictGet?]
  | cons hd tl ih =>
    by_cases h : hd.1 = k <;> simp [dictInsert, dictGet?, h, ih]

theorem dictGet?_insert_ne {α : Type} (ps : List (String × α)) (k k' : String) (v : α)
    (h : k ≠ k') : dictGet? (dictInsert ps k v) k' = dictGet? ps k' := by
  induction ps with
  | nil => simp [dictInsert, dictGet?, h]
  | cons hd tl ih =>
    obtain ⟨k0, w⟩ := hd
    simp only [dictInsert]
    by_cases hk : k0 = k
    · rw [if_pos hk]
      simp only [dictGet?, if_neg h, hk]
    · rw [if_neg hk]
      simp only [dictGet?]
      by_cases hk' : k0 = k' <;> simp [hk', ih]

theorem dictGet?_eq_none_iff {α : Type} (ps : List (String × α)) (k : String) :
    dictGet? ps k = none ↔ k ∉ ps.map Prod.fst := by
  induction ps with
  | nil => simp [dictGet?]
  | cons hd tl ih =>
    obtain ⟨k0, w⟩ := hd
    simp only [dictGet?, List.map_cons, List.mem_cons]
    by_cases h : k0 = k
    · simp [h]
    · rw [if_neg h, ih]
      simp only [not_or]
      constructor
      · intro hk
        exact ⟨fun he => h he.symm, hk⟩
      · intro hk
        exact hk.2

theorem mem_keys_of_dictGet? {α : Type} {ps : List (String × α)} {k : String} {v : α}
    (h : dictGet? ps k = some v) : k ∈ ps.map Prod.fst := by
  by_contra hk
  rw [← dictGet?_eq_none_iff] at hk
  rw [hk] at h
  exact Option.noConfusion h

theorem keys_dictInsert_of_not_mem {α : Type} (ps : List (String × α)) (k : String) (v : α)
    (h : dictGet? ps k = none) :
    (dictInsert ps k v).map Prod.fst = ps.map Prod.fst ++ [k] := by
  induction ps with
  | nil => simp [dictInsert]
  | cons hd tl ih =>
    obtain ⟨k0, w⟩ := hd
    simp only [dictGet?] at h
    by_cases hk : k0 = k
    · simp [hk] at h
    · rw [if_neg hk] at h
      simp only [dictInsert, if_neg hk, List.map_cons, List.cons_append]
      rw [ih h]

theorem listIndex?_lt {x : String} : ∀ {l : List String} {i : Nat},
    listIndex? x l = some i → i < l.length := by
  intro l
  induction l with
  | nil => intro i h; simp [listIndex?] at h
  | cons y ys ih =>
    intro i h
    simp only [listIndex?] at h
    by_cases hy : y = x
    · rw [if_pos hy] at h
      obtain rfl : (0 : Nat) = i := Option.some.inj h
      simp
    · rw [if_neg hy, Option.map_eq_some'] at h
      obtain ⟨j, hj, rfl⟩ := h
      have h2 := ih hj
      simp only [List.length_cons]
      omega

theorem listIndex?_get? {x : String} : ∀ {l : List String} {i : Nat},
    listIndex? x l = some i → l.get? i = some x := by
  intro l
  induction l with
  | nil => intro i h; simp [listIndex?] at h
  | cons y ys ih =>
    intro i h
    simp only [listIndex?] at h
    by_cases hy : y = x
    · rw [if_pos hy] at h
      obtain rfl : (0 : Nat) = i := Option.some.inj h
      simp [hy]
    · rw [if_neg hy, Option.map_eq_some'] at h
      obtain ⟨j, hj, rfl⟩ := h
      simpa using ih hj

theorem foldlInsert_not_mem (val : Nat → ℚ × ℚ) :
    ∀ (cyc : List String) (k : Nat) (ps : PosMap) (x : String), x ∉ cyc →
      dictGet? ((pyEnum k cyc).foldl (fun ps ia => dictInsert ps ia.2 (val ia.1)) ps) x
        = dictGet? ps x := by
  intro cyc
  induction cyc with
  | nil => intro k ps x _; simp [pyEnum]
  | cons y ys ih =>
    intro k ps x hx
    simp only [List.mem_cons, not_or] at hx
    simp only [pyEnum, List.foldl_cons]
    rw [ih (k + 1) _ x hx.2, dictGet?_insert_ne _ _ _ _ (Ne.symm (Ne.intro hx.1))]

theorem foldlInsert_get (val : Nat → ℚ × ℚ) :
    ∀ (cyc : List String) (k : Nat) (ps : PosMap) (i : Nat) (h : i < cyc.length),
      cyc.Nodup →
      dictGet? ((pyEnum k cyc).foldl (fun ps ia => dictInsert ps ia.2 (val ia.1)) ps)
          (cyc.get ⟨i, h⟩) = some (val (k + i)) := by
  intro cyc
  induction cyc with
  | nil => intro k ps i h; simp at h
  | cons y ys ih =>
    intro k ps i h hnd
    simp only [List.nodup_cons] at hnd
    simp only [pyEnum, List.foldl_cons]
    match i with
    | 0 =>
      simp only [List.get]
      rw [foldlInsert_not_mem val ys (k + 1) _ y hnd.1, dictGet?_insert_self]
      simp
    | j + 1 =>
      simp only [List.get]
      have hj : j < ys.length := by
        have h2 := h
        simp only [List.length_cons] at h2
        omega
      rw [ih (k + 1) _ j hj hnd.2]
      congr 2
      omega

/-! Lemmas: the DFS visited set only grows -/

theorem subset_insertS (s : List String) (x : String) : s ⊆ insertS s x := by
  unfold insertS
  split
  · exact fun a ha => ha
  · exact fun a ha => List.mem_append_left _ ha

theorem mem_insertS (s : List String) (x : String) : x ∈ insertS s x := by
  unfold insertS
  split
  · assumption
  · simp

theorem dfsNbs_mono (rec : String → Option String → List String → List String →
      Except PyError (Option (List String) × List String))
    (Hrec : ∀ n p pa v r v', rec n p pa v = .ok (r, v') → v ⊆ v') :
    ∀ (nbs : List String) (node : String) (parent : Option String) (path : List String)
      (v : List String) (r : Option (List String)) (v' : List String),
      dfsNbs rec node parent path nbs v = .ok (r, v') → v ⊆ v' := by
  intro nbs
  induction nbs with
  | nil =>
    intro node parent path v r v' h
    simp only [dfsNbs, Except.ok.injEq, Prod.mk.injEq] at h
    rw [← h.2]
    exact fun a ha => ha
  | cons nb rest ih =>
    intro node parent path v r v' h
    simp only [dfsNbs] at h
    split at h
    · exact ih node parent path v r v' h
    · split at h
      · split at h
        · exact absurd h (by simp)
        · simp only [Except.ok.injEq, Prod.mk.injEq] at h
          rw [← h.2]
          exact fun a ha => ha
      · split at h
        · exact absurd h (by simp)
        · rename_i c v'' heq
          split at h
          · exact (Hrec _ _ _ _ _ _ heq).trans (ih node parent path v'' r v' h)
          · simp only [Except.ok.injEq, Prod.mk.injEq] at h
            rw [← h.2]
            exact Hrec _ _ _ _ _ _ heq
        · rename_i v'' heq
          exact (Hrec _ _ _ _ _ _ heq).trans (ih node parent path v'' r v' h)

theorem dfsAux_mono (g : Graph) :
    ∀ (fuel : Nat) (node : String) (parent : Option String) (path : List String)
      (v : List String) (r : Option (List String)) (v' : List String),
      dfsAux g fuel node parent path v = .ok (r, v') → v ⊆ v' := by
  intro fuel
  induction fuel with
  | zero => intro node parent path v r v' h; exact absurd h (by simp [dfsAux])
  | succ fuel ih =>
    intro node parent path v r v' h
    simp only [dfsAux] at h
    split at h
    · exact absurd h (by simp)
    · exact (subset_insertS v node).trans (dfsNbs_mono _ (fun n p pa vv rr vv' hh => ih n p pa vv rr vv' hh) _ _ _ _ _ _ _ h)

/-! DFS soundness: every returned cycle is a simple cycle of the graph -/

theorem mem_of_mem_path {path : List String} {node x : String}
    (hlast : path.getLast? = some node) (hx : x ∈ path) :
    x ∈ path.dropLast ∨ x = node := by
  have hdecomp := List.dropLast_append_getLast? node hlast
  rw [← hdecomp] at hx
  rcases List.mem_append.1 hx with h | h
  · exact Or.inl h
  · exact Or.inr (List.mem_singleton.1 h)

theorem goodCycle_of_drop {g : Graph} {path : List String} {node nb : String} {i : Nat}
    (hnd : path.Nodup) (hlast : path.getLast? = some node)
    (hchain : List.Chain' (adjacent g) path) (hadj : adjacent g node nb)
    (hidx : listIndex? nb path = some i) : goodCycle g (path.drop i) := by
  have hi : i < path.length := listIndex?_lt hidx
  have hget : path.get? i = some nb := listIndex?_get? hidx
  have hne : path.drop i ≠ [] := by
    intro hcon
    rw [List.drop_eq_nil_iff] at hcon
    omega
  refine ⟨hne, List.Nodup.sublist (List.drop_sublist i path) hnd, ?_⟩
  have hhead : (path.drop i).head? = some nb := by
    rw [List.head?_drop]
    rw [← List.get?_eq_getElem?]
    exact hget
  have htake : (path.drop i).take 1 = [nb] := by
    rw [List.take_one]
    rw [hhead]
    rfl
  rw [htake, List.chain'_append]
  refine ⟨List.Chain'.suffix hchain (List.drop_suffix i path), List.chain'_singleton nb, ?_⟩
  intro x hx y hy
  rw [List.getLast?_drop, if_neg (by omega)] at hx
  rw [hlast, Option.mem_some_iff] at hx
  rw [List.head?_cons, Option.mem_some_iff] at hy
  rw [hx, hy] at hadj
  exact hadj

theorem dfsNbs_cycle (g : Graph)
    (rec : String → Option String → List String → List String →
      Except PyError (Option (List String) × List String))
    (Hmono : ∀ n p pa v r v', rec n p pa v = .ok (r, v') → v ⊆ v')
    (Hrec : ∀ n p pa v c v', pa.Nodup → pa.getLast? = some n →
      List.Chain' (adjacent g) pa → (∀ x ∈ pa.dropLast, x ∈ v) →
      rec n p pa v = .ok (some c, v') → goodCycle g c) :
    ∀ (nbs : List String) (node : String) (parent : Option String) (path : List String)
      (v : List String) (c : List String) (v' : List String),
      path.Nodup → path.getLast? = some node → List.Chain' (adjacent g) path →
      (∀ x ∈ path, x ∈ v) → (∀ x ∈ nbs, adjacent g node x) →
      dfsNbs rec node parent path nbs v = .ok (some c, v') → goodCycle g c := by
  intro nbs
  induction nbs with
  | nil =>
    intro node parent path v c v' _ _ _ _ _ h
    simp [dfsNbs] at h
  | cons nb rest ih =>
    intro node parent path v c v' hnd hlast hchain hpathv hnbs h
    have hadj : adjacent g node nb := hnbs nb (List.mem_cons_self nb rest)
    have hrest : ∀ x ∈ rest, adjacent g node x := fun x hx => hnbs x (List.mem_cons_of_mem nb hx)
    simp only [dfsNbs] at h
    split at h
    · exact ih node parent path v c v' hnd hlast hchain hpathv hrest h
    · rename_i hpar
      split at h
      · rename_i hvis
        split at h
        · exact absurd h (by simp)
        · rename_i i hidx
          simp only [Except.ok.injEq, Prod.mk.injEq] at h
          obtain rfl := Option.some.inj h.1
          exact goodCycle_of_drop hnd hlast hchain hadj hidx
      · rename_i hvis
        split at h
        · exact absurd h (by simp)
        · rename_i c'' v'' heq
          have hnbpath : nb ∉ path := fun hmem => hvis (hpathv nb hmem)
          have hnd' : (path ++ [nb]).Nodup := by
            rw [List.nodup_append]
            exact ⟨hnd, List.nodup_singleton nb, by simpa using hnbpath⟩
          have hlast' : (path ++ [nb]).getLast? = some nb := List.getLast?_concat path
          have hchain' : List.Chain' (adjacent g) (path ++ [nb]) := by
            rw [List.chain'_append]
            refine ⟨hchain, List.chain'_singleton nb, ?_⟩
            intro x hx y hy
            rw [hlast, Option.mem_some_iff] at hx
            rw [List.head?_cons, Option.mem_some_iff] at hy
            rw [hx, hy] at hadj
            exact hadj
          split at h
          · rename_i hemp
            have hsub := Hmono _ _ _ _ _ _ heq
            exact ih node parent path v'' c v' hnd hlast hchain
              (fun x hx => hsub (hpathv x hx)) hrest h
          · simp only [Except.ok.injEq, Prod.mk.injEq] at h
            obtain rfl := Option.some.inj h.1
            have hdrop' : ∀ x ∈ (path ++ [nb]).dropLast, x ∈ v := by
              rw [List.dropLast_concat]
              exact hpathv
            exact Hrec _ _ _ _ _ _ hnd' hlast' hchain' hdrop' heq
        · rename_i v'' heq
          have hsub := Hmono _ _ _ _ _ _ heq
          exact ih node parent path v'' c v' hnd hlast hchain
            (fun x hx => hsub (hpathv x hx)) hrest h

theorem dfsAux_cycle (g : Graph) :
    ∀ (fuel : Nat) (node : String) (parent : Option String) (path : List String)
      (v : List String) (c : List String) (v' : List String),
      path.Nodup → path.getLast? = some node → List.Chain' (adjacent g) path →
      (∀ x ∈ path.dropLast, x ∈ v) →
      dfsAux g fuel node parent path v = .ok (some c, v') → goodCycle g c := by
  intro fuel
  induction fuel with
  | zero => intro node parent path v c v' _ _ _ _ h; exact absurd h (by simp [dfsAux])
  | succ fuel ih =>
    intro node parent path v c v' hnd hlast hchain hdrop h
    simp only [dfsAux] at h
    split at h
    · exact absurd h (by simp)
    · rename_i nbs hnbsEq
      have hpathv : ∀ x ∈ path, x ∈ insertS v node := by
        intro x hx
        rcases mem_of_mem_path hlast hx with hx' | hx'
        · exact subset_insertS v node (hdrop x hx')
        · rw [hx']
          exact mem_insertS v node
      have hadjs : ∀ x ∈ nbs, adjacent g node x := by
        intro x hx
        simp [adjacent, hnbsEq]
        exact hx
      exact dfsNbs_cycle g (dfsAux g fuel)
        (fun n p pa vv rr vv' hh => dfsAux_mono g fuel n p pa vv rr vv' hh)
        (fun n p pa vv cc vv' h1 h2 h3 h4 h5 => ih n p pa vv cc vv' h1 h2 h3 h4 h5)
        nbs node parent path (insertS v node) c v' hnd hlast hchain hpathv hadjs h

theorem fcLoop_cycle (g : Graph) (fuel : Nat) :
    ∀ (nodes : List String) (v : List String) (c : List String),
      fcLoop g fuel nodes v = .ok (some c) → goodCycle g c := by
  intro nodes
  induction nodes with
  | nil => intro v c h; simp [fcLoop] at h
  | cons node rest ih =>
    intro v c h
    simp only [fcLoop] at h
    split at h
    · exact ih v c h
    · split at h
      · exact absurd h (by simp)
      · rename_i c'' v'' heq
        split at h
        · exact ih v'' c h
        · simp only [Except.ok.injEq, Option.some.injEq] at h
          rw [← h]
          exact dfsAux_cycle g fuel node none [node] v c'' v''
            (List.nodup_singleton node) rfl (List.chain'_singleton node)
            (by simp) heq
      · rename_i v'' heq
        exact ih v'' c h

/-- Every cycle that `find_cycle` returns is a simple cycle of its input
graph. -/
theorem find_cycle_good {g : Graph} {c : List String}
    (h : find_cycle g = .ok (some c)) : goodCycle g c :=
  fcLoop_cycle g (allNodes g).length (g.map Prod.fst) [] c h

/-! DFS fuel sufficiency: the fuel chosen by `find_cycle` is never
exhausted, so the fueled embedding agrees with the unbounded recursion of
the source. -/

theorem toFinset_insertS (v : List String) (x : String) :
    (insertS v x).toFinset = insert x v.toFinset := by
  unfold insertS
  split
  · rename_i hx
    rw [Finset.insert_eq_self.2 (List.mem_toFinset.2 hx)]
  · rw [List.toFinset_append]
    simp [Finset.union_comm, Finset.insert_eq]

theorem measure_insertS_lt (Ug v : List String) (x : String)
    (hxU : x ∈ Ug) (hxv : x ∉ v) :
    (Ug.toFinset \ (insertS v x).toFinset).card < (Ug.toFinset \ v.toFinset).card := by
  rw [toFinset_insertS, Finset.sdiff_insert]
  exact Finset.card_erase_lt_of_mem
    (Finset.mem_sdiff.2 ⟨List.mem_toFinset.2 hxU, fun hc => hxv (List.mem_toFinset.1 hc)⟩)

theorem measure_mono (Ug : List String) {v w : List String} (h : v ⊆ w) :
    (Ug.toFinset \ w.toFinset).card ≤ (Ug.toFinset \ v.toFinset).card := by
  refine Finset.card_le_card (Finset.sdiff_subset_sdiff (Finset.Subset.refl _) ?_)
  intro x hx
  rw [List.mem_toFinset] at hx ⊢
  exact h hx

theorem dictGet?_mem_values {α : Type} : ∀ {l : List (String × α)} {k : String} {val : α},
    dictGet? l k = some val → val ∈ l.map Prod.snd := by
  intro l
  induction l with
  | nil => intro k val h; simp [dictGet?] at h
  | cons hd tl ih =>
    intro k val h
    simp only [dictGet?] at h
    split at h
    · simp [Option.some.inj h]
    · simp [ih h]

theorem mem_allNodes_of_neighbor {g : Graph} {u x : String} {nbs : List String}
    (hu : dictGet? g u = some nbs) (hx : x ∈ nbs) : x ∈ allNodes g := by
  unfold allNodes
  rw [List.mem_dedup, List.mem_append]
  exact Or.inr (List.mem_flatten.2 ⟨nbs, dictGet?_mem_values hu, hx⟩)

theorem mem_allNodes_of_key {g : Graph} {u : String}
    (hu : u ∈ g.map Prod.fst) : u ∈ allNodes g := by
  unfold allNodes
  rw [List.mem_dedup, List.mem_append]
  exact Or.inl hu

theorem dfsNbs_fuel (g : Graph) (fuel : Nat)
    (rec : String → Option String → List String → List String →
      Except PyError (Option (List String) × List String))
    (Hmono : ∀ n p pa v r v', rec n p pa v = .ok (r, v') → v ⊆ v')
    (Hfuel : ∀ n p pa v, n ∉ v → n ∈ allNodes g →
      ((allNodes g).toFinset \ v.toFinset).card ≤ fuel →
      rec n p pa v ≠ .error .fuelExhausted) :
    ∀ (nbs : List String) (node : String) (parent : Option String) (path : List String)
      (v : List String),
      (∀ x ∈ nbs, x ∈ allNodes g) →
      ((allNodes g).toFinset \ v.toFinset).card ≤ fuel →
      dfsNbs rec node parent path nbs v ≠ .error .fuelExhausted := by
  intro nbs
  induction nbs with
  | nil => intro node parent path v _ _ h; simp [dfsNbs] at h
  | cons nb rest ih =>
    intro node parent path v hnbs hcard h
    have hrest : ∀ x ∈ rest, x ∈ allNodes g := fun x hx => hnbs x (List.mem_cons_of_mem nb hx)
    simp only [dfsNbs] at h
    split at h
    · exact ih node parent path v hrest hcard h
    · split at h
      · split at h
        · exact PyError.noConfusion (Except.error.inj h)
        · exact Except.noConfusion h
      · rename_i hvis
        split at h
        · rename_i e heq
          rw [Except.error.inj h] at heq
          exact Hfuel nb (some node) (path ++ [nb]) v hvis
            (hnbs nb (List.mem_cons_self nb rest)) hcard heq
        · rename_i c'' v'' heq
          split at h
          · exact ih node parent path v'' hrest
              (le_trans (measure_mono _ (Hmono _ _ _ _ _ _ heq)) hcard) h
          · exact Except.noConfusion h
        · rename_i v'' heq
          exact ih node parent path v'' hrest
            (le_trans (measure_mono _ (Hmono _ _ _ _ _ _ heq)) hcard) h

theorem dfsAux_fuel (g : Graph) :
    ∀ (fuel : Nat) (node : String) (parent : Option String) (path : List String)
      (v : List String),
      node ∉ v → node ∈ allNodes g →
      ((allNodes g).toFinset \ v.toFinset).card ≤ fuel →
      dfsAux g fuel node parent path v ≠ .error .fuelExhausted := by
  intro fuel
  induction fuel with
  | zero =>
    intro node parent path v hnv hnU hcard _
    have hmem : node ∈ (allNodes g).toFinset \ v.toFinset :=
      Finset.mem_sdiff.2 ⟨List.mem_toFinset.2 hnU, fun hc => hnv (List.mem_toFinset.1 hc)⟩
    have : ((allNodes g).toFinset \ v.toFinset).card = 0 := Nat.le_zero.1 hcard
    rw [Finset.card_eq_zero] at this
    rw [this] at hmem
    exact absurd hmem (Finset.not_mem_empty node)
  | succ fuel ih =>
    intro node parent path v hnv hnU hcard h
    simp only [dfsAux] at h
    split at h
    · exact PyError.noConfusion (Except.error.inj h)
    · rename_i nbs hnbsEq
      have hcard' : ((allNodes g).toFinset \ (insertS v node).toFinset).card ≤ fuel := by
        have := measure_insertS_lt (allNodes g) v node hnU hnv
        omega
      exact dfsNbs_fuel g fuel (dfsAux g fuel)
        (fun n p pa vv rr vv' hh => dfsAux_mono g fuel n p pa vv rr vv' hh)
        (fun n p pa vv h1 h2 h3 => ih n p pa vv h1 h2 h3)
        nbs node parent path (insertS v node)
        (fun x hx => mem_allNodes_of_neighbor hnbsEq hx) hcard' h

theorem fcLoop_fuel (g : Graph) :
    ∀ (nodes : List String) (v : List String),
      (∀ x ∈ nodes, x ∈ allNodes g) →
      fcLoop g (allNodes g).length nodes v ≠ .error .fuelExhausted := by
  intro nodes
  induction nodes with
  | nil => intro v _ h; simp [fcLoop] at h
  | cons node rest ih =>
    intro v hnodes h
    have hrest : ∀ x ∈ rest, x ∈ allNodes g := fun x hx => hnodes x (List.mem_cons_of_mem node hx)
    simp only [fcLoop] at h
    split at h
    · exact ih v hrest h
    · rename_i hnv
      have hcard : ((allNodes g).toFinset \ v.toFinset).card ≤ (allNodes g).length :=
        le_trans (Finset.card_le_card (Finset.sdiff_subset)) (List.toFinset_card_le _)
      split at h
      · rename_i e heq
        rw [Except.error.inj h] at heq
        exact dfsAux_fuel g (allNodes g).length node none [node] v hnv
          (hnodes node (List.mem_cons_self node rest)) hcard heq
      · split at h
        · exact ih _ hrest h
        · exact Except.noConfusion h
      · exact ih _ hrest h

/-- The fuel with which `find_cycle` runs its DFS is never exhausted. -/
theorem find_cycle_no_fuel (g : Graph) : find_cycle g ≠ .error .fuelExhausted :=
  fcLoop_fuel g (g.map Prod.fst) [] (fun _ hx => mem_allNodes_of_key hx)

/-! BFS placement: positions are never reassigned, and the queue loop
terminates -/

theorem processConns_extends (F : FloatOps) (cycle : Option (List String))
    (current : String) (cpos : ℚ × ℚ) :
    ∀ (conns : List Conn) (ps : PosMap) (queue : List String) (ps' : PosMap)
      (queue' : List String),
      processConns F cycle current cpos conns ps queue = .ok (ps', queue') →
      ∀ (k : String) (pos : ℚ × ℚ), dictGet? ps k = some pos → dictGet? ps' k = some pos := by
  intro conns
  induction conns with
  | nil =>
    intro ps queue ps' queue' h k pos hk
    simp only [processConns, Except.ok.injEq, Prod.mk.injEq] at h
    rw [← h.1]
    exact hk
  | cons conn rest ih =>
    intro ps queue ps' queue' h k pos hk
    match conn with
    | .lonePair d =>
      exact ih ps queue ps' queue' h k pos hk
    | .bond d bt t =>
      simp only [processConns] at h
      split at h
      · exact ih ps queue ps' queue' h k pos hk
      · rename_i hfresh
        split at h
        · exact Except.noConfusion h
        · rename_i pos2 heq
          refine ih _ _ ps' queue' h k pos ?_
          have hkt : t ≠ k := by
            intro hc
            rw [hc] at hfresh
            rw [hk] at hfresh
            simp at hfresh
          rw [dictGet?_insert_ne ps t k pos2 hkt]
          exact hk

theorem processConns_no_fuel (F : FloatOps) (cycle : Option (List String))
    (current : String) (cpos : ℚ × ℚ) :
    ∀ (conns : List Conn) (ps : PosMap) (queue : List String),
      processConns F cycle current cpos conns ps queue ≠ .error .fuelExhausted := by
  intro conns
  induction conns with
  | nil => intro ps queue h; simp [processConns] at h
  | cons conn rest ih =>
    intro ps queue h
    match conn with
    | .lonePair d => exact ih ps queue h
    | .bond d bt t =>
      simp only [processConns] at h
      split at h
      · exact ih ps queue h
      · split at h
        · rename_i e heq
          rw [Except.error.inj h] at heq
          unfold computePos at heq
          split at heq
          · dsimp only at heq
            split at heq <;> exact Except.noConfusion heq
          · split at heq
            · exact Except.noConfusion heq
            · split at heq
              · exact Except.noConfusion heq
              · split at heq
                · exact Except.noConfusion heq
                · split at heq
                  · exact Except.noConfusion heq
                  · exact PyError.noConfusion (Except.error.inj heq)
        · exact ih _ _ h

theorem processConns_measure (Ub : List String) (F : FloatOps)
    (cycle : Option (List String)) (current : String) (cpos : ℚ × ℚ) :
    ∀ (conns : List Conn) (ps : PosMap) (queue : List String) (ps' : PosMap)
      (queue' : List String),
      (∀ d bt t, Conn.bond d bt t ∈ conns → t ∈ Ub) →
      processConns F cycle current cpos conns ps queue = .ok (ps', queue') →
      queue'.length + (Ub.toFinset \ (ps'.map Prod.fst).toFinset).card ≤
        queue.length + (Ub.toFinset \ (ps.map Prod.fst).toFinset).card := by
  intro conns
  induction conns with
  | nil =>
    intro ps queue ps' queue' _ h
    simp only [processConns, Except.ok.injEq, Prod.mk.injEq] at h
    rw [← h.1, ← h.2]
  | cons conn rest ih =>
    intro ps queue ps' queue' htgt h
    match conn with
    | .lonePair d =>
      exact ih ps queue ps' queue'
        (fun d' bt' t' hm => htgt d' bt' t' (List.mem_cons_of_mem _ hm)) h
    | .bond d bt t =>
      have htRest : ∀ d' bt' t', Conn.bond d' bt' t' ∈ rest → t' ∈ Ub :=
        fun d' bt' t' hm => htgt d' bt' t' (List.mem_cons_of_mem _ hm)
      have htU : t ∈ Ub := htgt d bt t (List.mem_cons_self _ _)
      simp only [processConns] at h
      split at h
      · exact ih ps queue ps' queue' htRest h
      · rename_i hfresh
        split at h
        · exact Except.noConfusion h
        · rename_i pos2 heq
          have hnone : dictGet? ps t = none := by
            cases hc : dictGet? ps t with
            | none => rfl
            | some val => rw [hc] at hfresh; simp at hfresh
          have hkeys := keys_dictInsert_of_not_mem ps t pos2 hnone
          have htps : t ∉ (ps.map Prod.fst) := (dictGet?_eq_none_iff ps t).1 hnone
          have hstep := ih (dictInsert ps t pos2) (queue ++ [t]) ps' queue' htRest h
          have hcardEq : ((Ub.toFinset \ ((dictInsert ps t pos2).map Prod.fst).toFinset).card) + 1
              = (Ub.toFinset \ (ps.map Prod.fst).toFinset).card := by
            rw [hkeys, List.toFinset_append]
            have : (ps.map Prod.fst).toFinset ∪ [t].toFinset
                = insert t (ps.map Prod.fst).toFinset := by
              simp [Finset.union_comm, Finset.insert_eq]
            rw [this, Finset.sdiff_insert]
            refine Finset.card_erase_add_one ?_
            exact Finset.mem_sdiff.2
              ⟨List.mem_toFinset.2 htU, fun hc => htps (List.mem_toFinset.1 hc)⟩
          have hqlen : (queue ++ [t]).length = queue.length + 1 := by simp
          omega

theorem bfsLoop_extends (F : FloatOps) (atoms : Atoms) (cycle : Option (List String)) :
    ∀ (fuel : Nat) (queue : List String) (ps : PosMap) (res : PosMap),
      bfsLoop F atoms cycle fuel queue ps = .ok res →
      ∀ (k : String) (pos : ℚ × ℚ), dictGet? ps k = some pos → dictGet? res k = some pos := by
  intro fuel
  induction fuel with
  | zero =>
    intro queue ps res h k pos hk
    match queue with
    | [] =>
      simp only [bfsLoop, Except.ok.injEq] at h
      rw [← h]
      exact hk
    | q :: qs => exact absurd h (by simp [bfsLoop])
  | succ fuel ih =>
    intro queue ps res h k pos hk
    match queue with
    | [] =>
      simp only [bfsLoop, Except.ok.injEq] at h
      rw [← h]
      exact hk
    | current :: rest =>
      simp only [bfsLoop] at h
      split at h
      · exact Except.noConfusion h
      · split at h
        · exact Except.noConfusion h
        · split at h
          · exact Except.noConfusion h
          · rename_i ps2 queue2 heq
            exact ih queue2 ps2 res h k pos
              (processConns_extends F cycle current _ _ _ rest ps2 queue2 heq k pos hk)

theorem mem_allNodes_of_bond {atoms : Atoms} {current : String} {atom : Atom}
    (hcur : dictGet? atoms current = some atom) {d bt t : String}
    (hmem : Conn.bond d bt t ∈ atom.connections) :
    t ∈ allNodes (build_graph atoms) := by
  have hg : dictGet? (build_graph atoms) current = some (bondTargets atom.connections) := by
    unfold build_graph
    clear hmem
    induction atoms with
    | nil => simp [dictGet?] at hcur
    | cons hd tl ihh =>
      simp only [dictGet?, List.map_cons] at hcur ⊢
      split at hcur
      · rename_i hk
        rw [if_pos hk, Option.some.inj hcur]
      · rename_i hk
        rw [if_neg hk]
        exact ihh hcur
  refine mem_allNodes_of_neighbor hg ?_
  unfold bondTargets
  rw [List.mem_filterMap]
  exact ⟨Conn.bond d bt t, hmem, rfl⟩

theorem bfsLoop_fuel (F : FloatOps) (atoms : Atoms) (cycle : Option (List String)) :
    ∀ (fuel : Nat) (queue : List String) (ps : PosMap),
      queue.length + ((allNodes (build_graph atoms)).toFinset \
        (ps.map Prod.fst).toFinset).card ≤ fuel →
      bfsLoop F atoms cycle fuel queue ps ≠ .error .fuelExhausted := by
  intro fuel
  induction fuel with
  | zero =>
    intro queue ps hcard h
    match queue with
    | [] => simp [bfsLoop] at h
    | q :: qs => simp at hcard
  | succ fuel ih =>
    intro queue ps hcard h
    match queue with
    | [] => simp [bfsLoop] at h
    | current :: rest =>
      simp only [bfsLoop] at h
      split at h
      · exact PyError.noConfusion (Except.error.inj h)
      · rename_i cpos hcpos
        split at h
        · exact PyError.noConfusion (Except.error.inj h)
        · rename_i atom hatom
          split at h
          · rename_i e heq
            rw [Except.error.inj h] at heq
            exact processConns_no_fuel F cycle current cpos atom.connections ps rest heq
          · rename_i ps2 queue2 heq
            have hm := processConns_measure (allNodes (build_graph atoms)) F cycle current cpos
              atom.connections ps rest ps2 queue2
              (fun d bt t hmem => mem_allNodes_of_bond hatom hmem) heq
            have hlen : (current :: rest).length = rest.length + 1 := by simp
            exact ih queue2 ps2 (by omega) h

/-! Circle seeding and top-level layout facts -/

theorem seedCycle_get (F : FloatOps) (cyc : List String) (hnd : cyc.Nodup)
    (i : Nat) (h : i < cyc.length) :
    dictGet? (seedCycle F cyc) (cyc.get ⟨i, h⟩)
      = some (1 * F.cos (2 * F.pi * (i : ℚ) / (cyc.length : ℚ)),
              1 * F.sin (2 * F.pi * (i : ℚ) / (cyc.length : ℚ))) := by
  have hfold := foldlInsert_get
    (fun j => (1 * F.cos (2 * F.pi * (j : ℚ) / (cyc.length : ℚ)),
               1 * F.sin (2 * F.pi * (j : ℚ) / (cyc.length : ℚ))))
    cyc 0 [] i h hnd
  simp only [Nat.zero_add] at hfold
  exact hfold

theorem place_atoms_unfold (F : FloatOps) (atoms : Atoms) (c : List String) (hc : c ≠ [])
    (hfc : find_cycle (build_graph atoms) = .ok (some c)) :
    place_atoms F atoms = bfsLoop F atoms (some c)
      (((seedCycle F c).map Prod.fst).length + (allNodes (build_graph atoms)).length)
      ((seedCycle F c).map Prod.fst) (seedCycle F c) := by
  unfold place_atoms
  dsimp only
  rw [hfc]
  dsimp only
  have htr : truthy (some c) = true := by
    simp [truthy, List.isEmpty_iff, hc]
  rw [seedPositions.eq_def, if_pos htr]
  rfl

/-- C1: whenever the cycle detector finds a cycle of length `n` and layout
completes, the layout engine has placed the `i`-th atom of that cycle at
`(cos (2*pi*i/n), sin (2*pi*i/n))`: evenly on the circle of radius 1.0
around the origin, starting at angle 0 on the positive x-axis and
proceeding counter-clockwise. -/
theorem cycleAtoms_on_unit_circle (F : FloatOps) (atoms : Atoms) (c : List String)
    (ps : PosMap) (hfc : find_cycle (build_graph atoms) = .ok (some c))
    (hpl : place_atoms F atoms = .ok ps) (i : Nat) (h : i < c.length) :
    dictGet? ps (c.get ⟨i, h⟩)
      = some (F.cos (2 * F.pi * (i : ℚ) / (c.length : ℚ)),
              F.sin (2 * F.pi * (i : ℚ) / (c.length : ℚ))) := by
  have hgood := find_cycle_good hfc
  rw [place_atoms_unfold F atoms c hgood.1 hfc] at hpl
  have hseed := seedCycle_get F c hgood.2.1 i h
  have hfin := bfsLoop_extends F atoms (some c) _ _ _ _ hpl _ _ hseed
  simpa using hfin

/-- C10: the breadth-first placement loop of the layout engine always
terminates: the fuel `place_atoms` allots to its queue loop (initial queue
length plus the number of labels that can ever be enqueued) is never
exhausted, because a label is enqueued only together with its first
position assignment and placed labels are never re-enqueued. -/
theorem layout_bfs_terminates (F : FloatOps) (atoms : Atoms) :
    place_atoms F atoms ≠ .error .fuelExhausted := by
  intro h
  unfold place_atoms at h
  dsimp only at h
  split at h
  · rename_i e heq
    rw [Except.error.inj h] at heq
    exact find_cycle_no_fuel (build_graph atoms) heq
  · split at h
    · rename_i e heq
      unfold seedPositions at heq
      split at heq
      · exact Except.noConfusion heq
      · split at heq
        · rw [Except.error.inj h] at heq
          exact PyError.noConfusion (Except.error.inj heq)
        · exact Except.noConfusion heq
    · rename_i ps0 heq
      refine bfsLoop_fuel F atoms _ _ _ _ ?_ h
      have hcard : (((allNodes (build_graph atoms)).toFinset \
          ((ps0.map Prod.fst)).toFinset).card) ≤ (allNodes (build_graph atoms)).length :=
        le_trans (Finset.card_le_card Finset.sdiff_subset) (List.toFinset_card_le _)
      omega

/-- C9: during the breadth-first phase of a layout run, an already
recorded position is never changed or reassigned: whatever binding the
positions dict holds when the loop starts is still held, unchanged, in the
loop's final result (first assignment wins; placed atoms are skipped). -/
theorem positions_never_reassigned (F : FloatOps) (atoms : Atoms)
    (cycle : Option (List String)) (fuel : Nat) (queue : List String) (ps res : PosMap)
    (hrun : bfsLoop F atoms cycle fuel queue ps = .ok res)
    (k : String) (pos : ℚ × ℚ) (hk : dictGet? ps k = some pos) :
    dictGet? res k = some pos :=
  bfsLoop_extends F atoms cycle fuel queue ps res hrun k pos hk

/-- C2: during layout, when the current atom belongs to the detected
cycle, a bond from it has direction `above`, and the bond's target is not
yet positioned, the position recorded for the target is the current
position plus the unit vector from the origin through the current
position (radially outward, with the length computed by the square-root
routine); when the current position is exactly the origin, it is the
current position plus (0, 1) instead.  The hypothesis on `F.sqrt` states
the defining property of the real square root at the one point where the
code consults it. -/
theorem ring_above_radial_placement (F : FloatOps) (c : List String) (current : String)
    (px py : ℚ) (bt target : String) (conns : List Conn) (ps : PosMap)
    (queue : List String) (ps' : PosMap) (queue' : List String)
    (hmem : current ∈ c)
    (hfresh : dictGet? ps target = none)
    (hsqrt : 0 < F.sqrt (px ^ 2 + py ^ 2) ↔ ¬(px = 0 ∧ py = 0))
    (hrun : processConns F (some c) current (px, py)
      (Conn.bond "above" bt target :: conns) ps queue = .ok (ps', queue')) :
    dictGet? ps' target = some (if px = 0 ∧ py = 0 then (px, py + 1)
      else (px + px / F.sqrt (px ^ 2 + py ^ 2), py + py / F.sqrt (px ^ 2 + py ^ 2))) := by
  have hcond : truthy (some c) = true ∧
      current ∈ (some c : Option (List String)).getD [] ∧ ("above" : String) = "above" := by
    refine ⟨?_, by simpa using hmem, rfl⟩
    simp [truthy, List.isEmpty_iff, List.ne_nil_of_mem hmem]
  simp only [processConns, hfresh, Option.isSome_none, Bool.false_eq_true, if_false] at hrun
  by_cases horig : px = 0 ∧ py = 0
  · have hcp : computePos F (some c) current (px, py) "above" = .ok (px, py + 1) := by
      unfold computePos
      rw [if_pos hcond]
      dsimp only
      rw [if_neg (fun hlt => (hsqrt.1 hlt) horig)]
    rw [hcp] at hrun
    dsimp only at hrun
    rw [if_pos horig]
    exact processConns_extends F (some c) current (px, py) conns _ _ _ _ hrun target _
      (dictGet?_insert_self ps target _)
  · have hpos : 0 < F.sqrt (px ^ 2 + py ^ 2) := hsqrt.2 horig
    have hcp : computePos F (some c) current (px, py) "above"
        = .ok (px + px / F.sqrt (px ^ 2 + py ^ 2), py + py / F.sqrt (px ^ 2 + py ^ 2)) := by
      unfold computePos
      rw [if_pos hcond]
      dsimp only
      rw [if_pos hpos]
    rw [hcp] at hrun
    dsimp only at hrun
    rw [if_neg horig]
    exact processConns_extends F (some c) current (px, py) conns _ _ _ _ hrun target _
      (dictGet?_insert_self ps target _)

/-- C7 (amended): the layout raises the unknown-direction ValueError
exactly when the BFS processes a bond whose direction is outside the four
recognized values and whose target is not yet positioned; the error text
names the direction. -/
theorem unknown_direction_error (F : FloatOps) (cycle : Option (List String))
    (current : String) (cpos : ℚ × ℚ) (d bt target : String) (conns : List Conn)
    (ps : PosMap) (queue : List String)
    (hd1 : d ≠ "right") (hd2 : d ≠ "left") (hd3 : d ≠ "above") (hd4 : d ≠ "below")
    (hfresh : dictGet? ps target = none) :
    processConns F cycle current cpos (Conn.bond d bt target :: conns) ps queue
      = .error (.valueError ("Unknown direction: " ++ d)) := by
  have hnc : ¬(truthy cycle = true ∧ current ∈ cycle.getD [] ∧ d = "above") :=
    fun hc => hd3 hc.2.2
  have hcp : computePos F cycle current cpos d
      = .error (.valueError ("Unknown direction: " ++ d)) := by
    unfold computePos
    rw [if_neg hnc, if_neg hd1, if_neg hd2, if_neg hd3, if_neg hd4]
  simp only [processConns, hfresh, Option.isSome_none, Bool.false_eq_true, if_false]
  rw [hcp]

/-- C3: whenever the cycle detector returns a sequence, that sequence is a
simple cycle of the connectivity graph it was given: nonempty, without
repeated atoms, and with every pair of consecutive elements, including the
wraparound pair, bonded; its length therefore equals the length of the
simple cycle it traces. -/
theorem detector_returns_simple_cycle (g : Graph) (c : List String)
    (h : find_cycle g = .ok (some c)) : goodCycle g c :=
  find_cycle_good h

/-- Witness for C3: on the one-sidedly oriented triangle the detector
returns `[A, B, C]`, which is a simple cycle of the built graph. -/
theorem detector_returns_simple_cycle_witness :
    goodCycle
      (build_graph ((parse_molecule "A[right:-:B];B[right:-:C];C[right:-:A]").toOption.getD []))
      ["A", "B", "C"] :=
  detector_returns_simple_cycle _ _ (by decide)

/-- C4 (counterexample): this molecule's bonds, declared one-sidedly
(`A` declares bonds to `B` and `C`, `C` declares its bond to `B`), form the
undirected simple cycle `A-B-C`, yet the detector aborts with the
ValueError of `path.index` instead of finding a cycle. -/
theorem cycle_detection_depends_on_declaring_side :
    find_cycle (build_graph
      ((parse_molecule "A[right:-:B,left:-:C];B[above::];C[right:-:B]").toOption.getD []))
      = .error (.valueError "not in list") := by
  decide

/-- C4 (amended): cycle detection is sensitive to which endpoint declares
each bond.  It does find the cycle when the declarations orient the cycle
consistently (each bond declared by exactly one side, forming a directed
cycle) and when every bond is declared by both endpoints. -/
theorem cycle_detection_when_consistently_declared :
    find_cycle (build_graph
      ((parse_molecule "A[right:-:B];B[right:-:C];C[right:-:A]").toOption.getD []))
      = .ok (some ["A", "B", "C"]) ∧
    find_cycle (build_graph
      ((parse_molecule
        "A[right:-:B,left:-:C];B[left:-:A,right:-:C];C[right:-:A,left:-:B]").toOption.getD []))
      = .ok (some ["A", "B", "C"]) := by
  constructor <;> decide

/-- C5 (counterexample): a non-blank statement that does not match the atom
grammar is silently skipped, not a parse error: the input `?[x]` parses
successfully to an empty molecule. -/
theorem nonmatching_statement_silently_skipped :
    parse_molecule "?[x]" = .ok [] := by
  decide

/-- C5 (amended): statements that do not match the atom grammar are
silently ignored; but inside a matching statement, a connection token that
neither ends in `::` nor splits on `:` into exactly three parts aborts
parsing with the tuple-unpacking ValueError — in particular `X[bad]`. -/
theorem parse_bad_connection_token_errors :
    (∀ (atoms : Atoms) (line : List Char), regexMatch (trimChars line) = none →
      parseStatement atoms line = .ok atoms) ∧
    parse_molecule "X[bad]" = .error (.valueError "unpack") := by
  constructor
  · intro atoms line h
    unfold parseStatement
    dsimp only
    split
    · rfl
    · rw [h]
  · decide

/-- Witness for C5: the skipped statement `?` and the failing `X[bad]`. -/
theorem parse_bad_connection_token_errors_witness :
    parseStatement [] [Char.ofNat 63] = .ok [] ∧
    parse_molecule "X[bad]" = .error (.valueError "unpack") :=
  ⟨parse_bad_connection_token_errors.1 [] [Char.ofNat 63] (by decide),
   parse_bad_connection_token_errors.2⟩

/-- C6 (amended): a bond naming an undefined target label is not reported
through a dedicated error: when cycle detection reaches it, the pipeline
dies with the raw KeyError of the adjacency lookup, naming the missing
label — here `X[above:-:Y]` raises KeyError `Y`. -/
theorem undefined_reference_keyerror (F : FloatOps) :
    place_atoms F ((parse_molecule "X[above:-:Y]").toOption.getD [])
      = .error (.keyError "Y") := by
  with_unfolding_all rfl

/-- C6 (counterexample): an undefined bond target does not always make the
pipeline fail at all: here the cycle `A-B-C` is found before the detector
ever visits `Z`, `Z` is unreachable from the seeded cycle, and layout
completes successfully even though `Z`'s bond names the undefined `Y`. -/
theorem undefined_reference_not_always_detected :
    place_atoms F0
      ((parse_molecule "A[right:-:B];B[right:-:C];C[right:-:A];Z[above:-:Y]").toOption.getD [])
      = .ok [("A", (0, 10)), ("B", (2, 12)), ("C", (4, 14))] := by
  with_unfolding_all rfl

/-- C7 (counterexample): a molecule containing a connection with an
unrecognized direction need not make layout fail: `B`'s bond with
direction `weird` targets the already-placed `A`, so it is skipped and
layout produces output. -/
theorem unknown_direction_not_always_error :
    place_atoms F0 ((parse_molecule "A[right:-:B];B[weird:-:A]").toOption.getD [])
      = .ok [("A", (0, 0)), ("B", (1, 0))] := by
  with_unfolding_all rfl

/-- Witness for C7: a bond with direction `weird` toward an unplaced
target makes the connection loop abort with the unknown-direction
ValueError. -/
theorem unknown_direction_error_witness :
    processConns F0 none "A" (0, 0) [Conn.bond "weird" "-" "B"] [("A", (0, 0))] []
      = .error (.valueError "Unknown direction: weird") :=
  unknown_direction_error F0 none "A" (0, 0) "weird" "-" "B" [] [("A", (0, 0))] []
    (by decide) (by decide) (by decide) (by decide) (by with_unfolding_all rfl)

/-- C8: the linear three-atom molecule is laid out with no cycle detected,
`A` seeded at the origin and each `right` bond placing its target one unit
to the right: A=(0,0), B=(1,0), C=(2,0).  The third conjunct is the
general adjacency-placement fact: a `right` bond from any current
position `(px, py)` always computes `(px + 1, py)`. -/
theorem linear_three_atoms_layout (F : FloatOps) :
    find_cycle (build_graph
      ((parse_molecule "A[right:-:B];B[left:-:A,right:-:C];C[left:-:B]").toOption.getD []))
      = .ok none ∧
    place_atoms F
      ((parse_molecule "A[right:-:B];B[left:-:A,right:-:C];C[left:-:B]").toOption.getD [])
      = .ok [("A", ((0 : ℚ), (0 : ℚ))), ("B", (1, 0)), ("C", (2, 0))] ∧
    ∀ (cycle : Option (List String)) (current : String) (px py : ℚ),
      computePos F cycle current (px, py) "right" = .ok (px + 1, py) := by
  refine ⟨by decide, by with_unfolding_all rfl, ?_⟩
  intro cycle current px py
  unfold computePos
  rw [if_neg (fun hc => absurd hc.2.2 (by decide)), if_pos rfl]

/-- Witness for C1: the oriented triangle seeds its three cycle atoms on
the circle; atom 0 sits at angle 0. -/
theorem cycleAtoms_on_unit_circle_witness :
    dictGet? [("A", ((0 : ℚ), (10 : ℚ))), ("B", (2, 12)), ("C", (4, 14))]
        ((["A", "B", "C"] : List String).get ⟨0, by decide⟩)
      = some (F0.cos (2 * F0.pi * ((0 : Nat) : ℚ) / (((["A", "B", "C"] : List String).length) : ℚ)),
              F0.sin (2 * F0.pi * ((0 : Nat) : ℚ) / (((["A", "B", "C"] : List String).length) : ℚ))) :=
  cycleAtoms_on_unit_circle F0
    ((parse_molecule "A[right:-:B];B[right:-:C];C[right:-:A]").toOption.getD [])
    ["A", "B", "C"] [("A", (0, 10)), ("B", (2, 12)), ("C", (4, 14))]
    (by decide) (by with_unfolding_all rfl) 0 (by decide)

/-- Witness for C9: on the linear molecule, the seed binding A ↦ (0,0)
survives the whole BFS unchanged. -/
theorem positions_never_reassigned_witness :
    dictGet? [("A", ((0 : ℚ), (0 : ℚ))), ("B", (1, 0)), ("C", (2, 0))] "A"
      = some ((0 : ℚ), (0 : ℚ)) :=
  positions_never_reassigned F0
    ((parse_molecule "A[right:-:B];B[left:-:A,right:-:C];C[left:-:B]").toOption.getD [])
    none 10 ["A"] [("A", (0, 0))] [("A", (0, 0)), ("B", (1, 0)), ("C", (2, 0))]
    (by with_unfolding_all rfl) "A" (0, 0) (by with_unfolding_all rfl)

/-- Witness for C2: the ring atom `A` at (1, 0) places its `above`-bonded
`H` radially outward at (2, 0). -/
theorem ring_above_radial_placement_witness :
    dictGet? [("A", ((1 : ℚ), (0 : ℚ))), ("H", (2, 0))] "H" = some ((2 : ℚ), (0 : ℚ)) :=
  (ring_above_radial_placement F0 ["A"] "A" 1 0 "-" "H" [] [("A", (1, 0))] []
      [("A", (1, 0)), ("H", (2, 0))] ["H"]
      (by decide) (by with_unfolding_all rfl)
      (by
        constructor
        · intro _ hc
          exact absurd hc.1 (by norm_num)
        · intro _
          show (0 : ℚ) < F0.sqrt (1 ^ 2 + 0 ^ 2)
          norm_num [F0])
      (by with_unfolding_all rfl)).trans (by with_unfolding_all rfl)

end OMRF
